import Mathlib

/-!
Verification of the fuzzy code-location and patch-reconciliation engine in
`src/server.js`.  Document and snippet texts are modelled as `List Char`;
the JavaScript string primitives the engine uses (`includes`, `replace`
with a plain-string pattern, `split`, `join`, `trim`, `trimStart`,
`startsWith`, and the regexes `/\s+/g`, `/\r\n/g`, `/^(\s*)/`,
`/@@ -(\d+) \+(\d+) @@/g`) are embedded as executable functions below.
Line references point into `src/server.js`.  The external diff-match-patch
library used by `applyCodePatch` is not part of the repository and is
abstracted as a function parameter; the file-system collaborators
(`fs.readFile` / `fs.writeFile`) are modelled by passing the file content
in and recording a trace of the writes.
-/

namespace VibeServer

/-- The character class of the JS regex `\s` (also the class used by JS
`trim`/`trimStart`): ASCII whitespace plus the Unicode space characters. -/
def isWS (c : Char) : Bool :=
  c ∈ ([' ', '\t', '\n', '\r', '\x0b', '\x0c', '\u00A0', '\u1680',
    '\u2000', '\u2001', '\u2002', '\u2003', '\u2004', '\u2005', '\u2006',
    '\u2007', '\u2008', '\u2009', '\u200A', '\u2028', '\u2029', '\u202F',
    '\u205F', '\u3000', '\uFEFF'] : List Char)

/-- `line.match(/^(\s*)/)[1]`: the longest leading whitespace run
(server.js lines 640, 660, 684). -/
def indentOf (s : List Char) : List Char := s.takeWhile isWS

/-- JS `trimStart` (server.js lines 934, 938). -/
def trimStartChars (s : List Char) : List Char := s.dropWhile isWS

/-- JS `trim`: drop whitespace from both ends. -/
def trimChars (s : List Char) : List Char :=
  ((s.dropWhile isWS).reverse.dropWhile isWS).reverse

/-- JS `s.startsWith(p)`: `leadsWith p s` is true when `p` is an initial
segment of `s`. -/
def leadsWith : List Char → List Char → Bool
  | [], _ => true
  | _ :: _, [] => false
  | p :: ps, c :: cs => (p == c) && leadsWith ps cs

/-- JS `s.indexOf(pat)`: index of the leftmost occurrence of `pat` in `s`,
`none` when absent (JS returns `-1`). -/
def firstIndexOf : List Char → List Char → Option Nat
  | [], pat => if leadsWith pat [] then some 0 else none
  | c :: cs, pat =>
    if leadsWith pat (c :: cs) then some 0
    else (firstIndexOf cs pat).map (fun i => i + 1)

/-- JS `s.includes(pat)`. -/
def includes (s pat : List Char) : Bool := (firstIndexOf s pat).isSome

/-- The ECMAScript GetSubstitution step performed by `String.replace` on
the replacement string (with a plain-string pattern there are no capture
groups): a dollar sign introduces `$$` (a literal dollar), `$&` (the
matched text), a dollar followed by a backquote (`Char.ofNat 96`; the
text before the match) or a dollar followed by an apostrophe
(`Char.ofNat 39`; the text after the match); every other character — and
a dollar in any other position, including a trailing one — is copied
literally. -/
def getSubstitution (matched before after : List Char) : List Char → List Char
  | [] => []
  | [c] => [c]
  | c :: d :: rest =>
    if c = '$' then
      if d = '$' then '$' :: getSubstitution matched before after rest
      else if d = '&' then matched ++ getSubstitution matched before after rest
      else if d = Char.ofNat 96 then before ++ getSubstitution matched before after rest
      else if d = Char.ofNat 39 then after ++ getSubstitution matched before after rest
      else '$' :: getSubstitution matched before after (d :: rest)
    else c :: getSubstitution matched before after (d :: rest)

/-- JS `s.replace(pat, repl)` with a plain-string pattern: replace the
first occurrence of `pat` by `repl` after GetSubstitution of the
`$`-sequences in `repl` (the matched text is `pat` itself, the
before/after contexts are the parts of `s` around the occurrence);
return `s` unchanged when `pat` is absent.  Embeds the calls at
server.js lines 569, 633 and 946. -/
def replaceFirst (s pat repl : List Char) : List Char :=
  match firstIndexOf s pat with
  | none => s
  | some i =>
    s.take i
      ++ getSubstitution pat (s.take i) (s.drop (i + pat.length)) repl
      ++ s.drop (i + pat.length)

/-- `text.split('\n')`: split on every newline, keeping empty segments
(used throughout server.js, e.g. lines 637, 793, 853, 896, 927). -/
def splitNl : List Char → List (List Char)
  | [] => [[]]
  | c :: cs =>
    if c = '\n' then [] :: splitNl cs
    else
      match splitNl cs with
      | [] => [[c]]
      | l :: ls => (c :: l) :: ls

/-- `lines.join('\n')` (server.js lines 645, 666, 687, 802, 922). -/
def joinNl : List (List Char) → List Char
  | [] => []
  | [l] => l
  | l :: ls => l ++ '\n' :: joinNl ls

/-- `text.replace(/\r\n/g, '\n')` (server.js lines 848-850). -/
def stripCR : List Char → List Char
  | [] => []
  | '\r' :: '\n' :: rest => '\n' :: stripCR rest
  | c :: rest => c :: stripCR rest

/-- State machine for `replace(/\s+/g, ' ')`: `prevWS` records whether the
previously consumed character was whitespace, so each maximal whitespace
run contributes a single space. -/
def collapseAux : Bool → List Char → List Char
  | _, [] => []
  | prevWS, c :: cs =>
    if isWS c then
      if prevWS then collapseAux true cs else ' ' :: collapseAux true cs
    else c :: collapseAux false cs

/-- `text.replace(/\s+/g, ' ')` (server.js lines 573-574). -/
def collapse (s : List Char) : List Char := collapseAux false s

/-- State machine for `s.split(/\s+/)`: each maximal whitespace run is one
separator, and runs touching the ends contribute empty segments. -/
def splitWSAux : Bool → List Char → List (List Char)
  | _, [] => [[]]
  | prevWS, c :: cs =>
    if isWS c then
      if prevWS then splitWSAux true cs else [] :: splitWSAux true cs
    else
      match splitWSAux false cs with
      | [] => [[c]]
      | l :: ls => (c :: l) :: ls

/-- `s.split(/\s+/)` (server.js lines 672, 675). -/
def splitWS (s : List Char) : List (List Char) := splitWSAux false s

/-- The `match_mode` values accepted by `smart_replace` (server.js 559). -/
inductive MatchMode
  | exact
  | fuzzy
  | smart
  deriving DecidableEq

/-- Strategy 2 of `smartMatch` (server.js lines 636-647): the first line
whose trimmed content equals `trimmedOld` has its text replaced by the
line's original indentation followed by `newCode.trim()`. -/
def lineScan (trimmedOld newCode : List Char) :
    List (List Char) → Option (List (List Char))
  | [] => none
  | l :: ls =>
    if trimChars l = trimmedOld then
      some ((indentOf l ++ trimChars newCode) :: ls)
    else (lineScan trimmedOld newCode ls).map (fun r => l :: r)

/-- The window test of strategy 3 (server.js lines 654-661): every line of
the pattern, trimmed, equals the corresponding document line, trimmed. -/
def trimEq2 : List (List Char) → List (List Char) → Bool
  | [], _ => true
  | _ :: _, [] => false
  | p :: ps, l :: ls => decide (trimChars l = trimChars p) && trimEq2 ps ls

/-- Strategy 3 of `smartMatch` (server.js lines 649-668): slide a window of
`oldLs.length` lines over the document; on the first window whose lines all
trim-match, splice in `newLs`, each line re-indented with the indentation
of the window's first original line. -/
def windowScan (oldLs newLs : List (List Char)) :
    List (List Char) → Option (List (List Char))
  | [] => none
  | l :: ls =>
    if trimEq2 oldLs (l :: ls) then
      some (newLs.map (fun nl => indentOf l ++ trimChars nl)
        ++ (l :: ls).drop oldLs.length)
    else (windowScan oldLs newLs ls).map (fun r => l :: r)

/-- `matchCount` of strategy 4 (server.js lines 677-681): how many of
`oldParts` occur (set membership) among `lineParts`. -/
def overlapCount (oldParts lineParts : List (List Char)) : Nat :=
  (oldParts.filter (fun p => lineParts.contains p)).length

/-- Strategy 4 of `smartMatch` (server.js lines 671-689): the first line
whose token overlap with `oldParts` exceeds the 80% threshold is replaced
by its indentation followed by `newCode.trim()`.  The JS float comparison
`matchCount / oldParts.length > 0.8` is modelled exactly as the rational
comparison `5 * matchCount > 4 * oldParts.length` (for the feasible token
counts the IEEE double division is correctly rounded and the comparison
agrees; in particular `4/5 > 0.8` is false in JS, as here). -/
def tokenScan (oldParts : List (List Char)) (newCode : List Char) :
    List (List Char) → Option (List (List Char))
  | [] => none
  | l :: ls =>
    if 5 * overlapCount oldParts (splitWS (trimChars l)) > 4 * oldParts.length then
      some ((indentOf l ++ trimChars newCode) :: ls)
    else (tokenScan oldParts newCode ls).map (fun r => l :: r)

/-- `smartMatch` (server.js lines 628-692): the four smart-mode strategies
in order — direct substring replacement, trimmed single-line match,
multi-line trimmed window match, and partial token overlap (the latter only
when `oldCode` has more than 3 whitespace-separated tokens).  Returns the
new full document text or `none` (JS `false`). -/
def smartMatch (content oldCode newCode : List Char) : Option (List Char) :=
  if includes content oldCode then some (replaceFirst content oldCode newCode)
  else
    let trimmedOld := trimChars oldCode
    let lines := splitNl content
    match lineScan trimmedOld newCode lines with
    | some ls => some (joinNl ls)
    | none =>
      match windowScan (splitNl trimmedOld) (splitNl (trimChars newCode)) lines with
      | some ls => some (joinNl ls)
      | none =>
        let oldParts := splitWS trimmedOld
        if oldParts.length > 3 then
          match tokenScan oldParts newCode lines with
          | some ls => some (joinNl ls)
          | none => none
        else none

/-- The `for` loop locating `start` in the fuzzy branch (server.js lines
580-592): walk the content; before consuming a character, if the running
normalized index equals `target`, stop and return the current position.
The counter is bumped for a non-whitespace character or for a whitespace
character whose predecessor is whitespace, exactly as in the source.  If
the loop exhausts the content without the break firing, `start` keeps its
initial value `0`. -/
def fuzzyStartAux (target : Nat) :
    List Char → Option Char → Nat → Nat → Nat
  | [], _, _, _ => 0
  | c :: cs, prev, i, normIdx =>
    if normIdx = target then i
    else
      fuzzyStartAux target cs (some c) (i + 1)
        (if !(isWS c) || (match prev with | some p => isWS p | none => false)
         then normIdx + 1 else normIdx)

/-- The `while` loop locating `end` in the fuzzy branch (server.js lines
595-601): starting at `start`, consume characters (bumping `oldIndex` by
the same rule, with `end > start` deciding whether a predecessor exists)
until `oldIndex` reaches `oldLen` or the content ends. -/
def fuzzyEndAux (oldLen : Nat) :
    List Char → Option Char → Nat → Nat → Nat
  | [], _, e, _ => e
  | c :: cs, prev, e, oi =>
    if oi < oldLen then
      fuzzyEndAux oldLen cs (some c) (e + 1)
        (if !(isWS c) || (match prev with | some p => isWS p | none => false)
         then oi + 1 else oi)
    else e

/-- `smartReplace` (server.js lines 559-626) as a pure document
transformation: `some newContent` is the text written on success, `none`
is the thrown "could not find the specified code" error.  The smart branch
reflects the JS truthiness test on `matchFound`: an empty result string is
falsy and is treated as no match (lines 606-618). -/
def smartReplace (content oldCode newCode : List Char) (mode : MatchMode) :
    Option (List Char) :=
  match mode with
  | MatchMode.exact =>
    if includes content oldCode then some (replaceFirst content oldCode newCode)
    else none
  | MatchMode.fuzzy =>
    let normalizedContent := collapse content
    let normalizedOld := collapse oldCode
    match firstIndexOf normalizedContent normalizedOld with
    | none => none
    | some index =>
      let start := fuzzyStartAux index content none 0 0
      let stop := fuzzyEndAux normalizedOld.length (content.drop start) none start 0
      some (content.take start ++ newCode ++ content.drop stop)
  | MatchMode.smart =>
    match smartMatch content oldCode newCode with
    | some nc => if nc = [] then none else some nc
    | none => none

/-- Outcome of one full tool invocation: `ok` is the reported success,
`file` the file content after the call, and `writes` the trace of
`fs.writeFile` calls performed. -/
structure RunOut where
  ok : Bool
  file : List Char
  writes : List (List Char)
  deriving DecidableEq

/-- One full `smart_replace` call (server.js lines 559-626): read the
content, run the engine, throw (no write) on no-match, otherwise write the
transformed text once. -/
def smartReplaceRun (content oldCode newCode : List Char) (mode : MatchMode) :
    RunOut :=
  match smartReplace content oldCode newCode mode with
  | some nc => ⟨true, nc, [nc]⟩
  | none => ⟨false, content, []⟩

/-- The accumulation step `acc += (acc ? '\n' : '') + part` of
`alternativePatch` (server.js lines 935, 939): the newline separator is
inserted only when the accumulator is already non-empty. -/
def accumBlock (acc part : List Char) : List Char :=
  if acc = [] then part else acc ++ '\n' :: part

/-- The extraction loop of `alternativePatch` (server.js lines 932-942):
one pass over the patch lines, accumulating stripped removal lines into
the first component and stripped addition lines into the second.  (The
source's `collectingOld`/`collectingNew` flags are dead and omitted.) -/
def extractLoop : List (List Char) → List Char × List Char → List Char × List Char
  | [], acc => acc
  | l :: ls, (o, n) =>
    if leadsWith ("-".data) l && !leadsWith ("---".data) l then
      extractLoop ls (accumBlock o (trimStartChars (l.drop 1)), n)
    else if leadsWith ("+".data) l && !leadsWith ("+++".data) l then
      extractLoop ls (o, accumBlock n (trimStartChars (l.drop 1)))
    else extractLoop ls (o, n)

/-- `alternativePatch` (server.js lines 924-961) as a pure transformation:
`some newContent` when the fallback succeeds (and writes), `none` when it
reports failure without touching the file. -/
def alternativePatch (originalContent patchContent : List Char) :
    Option (List Char) :=
  let blocks := extractLoop (splitNl patchContent) ([], [])
  if blocks.1 ≠ [] ∧ blocks.2 ≠ [] ∧ includes originalContent blocks.1 = true then
    some (replaceFirst originalContent blocks.1 blocks.2)
  else none

/-- Classify one patch line as a removal line (server.js line 933): it
starts with `-` but not `---`; the marker is stripped and leading
whitespace trimmed. -/
def remPart (l : List Char) : Option (List Char) :=
  if leadsWith ("-".data) l && !leadsWith ("---".data) l then
    some (trimStartChars (l.drop 1))
  else none

/-- Classify one patch line as an addition line (server.js line 937). -/
def addPart (l : List Char) : Option (List Char) :=
  if leadsWith ("+".data) l && !leadsWith ("+++".data) l then
    some (trimStartChars (l.drop 1))
  else none

/-- The removal lines of a patch, marker stripped and leading whitespace
trimmed, in order (the lines `alternativePatch` accumulates into
`oldText`). -/
def removalParts (patchContent : List Char) : List (List Char) :=
  (splitNl patchContent).filterMap remPart

/-- The addition lines of a patch, marker stripped and leading whitespace
trimmed, in order. -/
def additionParts (patchContent : List Char) : List (List Char) :=
  (splitNl patchContent).filterMap addPart

/-- The claim's reading of the fallback extraction: ALL stripped removal
lines joined with newlines.  (Second definition written from the spec's
words, for comparison with `alternativePatch` above.) -/
def claimedOldBlock (patchContent : List Char) : List Char :=
  joinNl (removalParts patchContent)

/-- The claim's reading of the addition block: ALL stripped addition lines
joined with newlines. -/
def claimedNewBlock (patchContent : List Char) : List Char :=
  joinNl (additionParts patchContent)

/-- The old block `alternativePatch` actually builds: stripped removal
lines joined with newlines, after discarding the leading run of empty
parts (a consequence of the truthiness test in the accumulation step). -/
def oldBlockOf (patchContent : List Char) : List Char :=
  joinNl ((removalParts patchContent).dropWhile (fun p => p.isEmpty))

/-- The new block `alternativePatch` actually builds. -/
def newBlockOf (patchContent : List Char) : List Char :=
  joinNl ((additionParts patchContent).dropWhile (fun p => p.isEmpty))

/-- `if leadsWith lit s` consume the literal `lit`, else fail (one step of
the header regex). -/
def dropLit (lit s : List Char) : Option (List Char) :=
  if leadsWith lit s then some (s.drop lit.length) else none

/-- Greedy `\d+`: the maximal leading digit run, failing when empty. -/
def digitRun (s : List Char) : Option (List Char × List Char) :=
  if s.takeWhile Char.isDigit = [] then none
  else some (s.takeWhile Char.isDigit, s.dropWhile Char.isDigit)

/-- Attempt to match the regex `@@ -(\d+) \+(\d+) @@` at the head of `s`
(server.js line 891); on success return the first capture group (the
old-side position `X`) and the remainder of the input after the match.
Since `\d+` is followed by a non-digit in the pattern, the greedy maximal
digit run is the unique possible match. -/
def matchHeader (s : List Char) : Option (List Char × List Char) :=
  (dropLit ("@@ -".data) s).bind fun s1 =>
    (digitRun s1).bind fun p =>
      (dropLit (" +".data) p.2).bind fun s3 =>
        (digitRun s3).bind fun q =>
          (dropLit (" @@".data) q.2).map fun s5 => (p.1, s5)

theorem leadsWith_length {p s : List Char} (h : leadsWith p s = true) :
    p.length ≤ s.length := by
  induction p generalizing s with
  | nil => simp
  | cons a ps ih =>
    cases s with
    | nil => simp [leadsWith] at h
    | cons c cs =>
      simp only [leadsWith, Bool.and_eq_true] at h
      have := ih h.2
      simp only [List.length_cons]
      omega

theorem dropLit_length {lit s t : List Char} (h : dropLit lit s = some t) :
    t.length + lit.length = s.length := by
  unfold dropLit at h
  split at h
  · rename_i hl
    cases h
    have := leadsWith_length hl
    rw [List.length_drop]
    omega
  · cases h

theorem digitRun_length {s x r : List Char}
    (h : digitRun s = some (x, r)) : r.length ≤ s.length ∧ x ≠ [] := by
  unfold digitRun at h
  split at h
  · cases h
  · rename_i hne
    cases h
    refine ⟨?_, hne⟩
    have hlen : (s.takeWhile Char.isDigit).length
        + (s.dropWhile Char.isDigit).length = s.length := by
      rw [← List.length_append, List.takeWhile_append_dropWhile]
    omega

theorem matchHeader_length {s x r : List Char}
    (h : matchHeader s = some (x, r)) : r.length < s.length := by
  unfold matchHeader at h
  simp only [Option.bind_eq_some, Option.map_eq_some'] at h
  obtain ⟨s1, h1, p, h2, s3, h3, q, h4, s5, h5, heq⟩ := h
  have l2 := (@digitRun_length s1 p.1 p.2 (by rw [h2])).1
  have l4 := (@digitRun_length s3 q.1 q.2 (by rw [h4])).1
  have l1 := dropLit_length h1
  have l3 := dropLit_length h3
  have l5 := dropLit_length h5
  cases heq
  simp only [List.length_cons, List.length_nil] at l1 l3 l5
  omega

/-- `fixed.replace(/@@ -(\d+) \+(\d+) @@/g, '@@ -$1,1 +$1,1 @@')`
(server.js lines 890-891): global left-to-right non-overlapping rewrite;
note that BOTH rewritten fields reuse the first capture group `X` and the
second capture group is discarded. -/
def fixHeaders (s : List Char) : List Char :=
  match s with
  | [] => []
  | c :: cs =>
    match h : matchHeader (c :: cs) with
    | some (x, rest) =>
      ("@@ -".data) ++ x ++ (",1 +".data) ++ x ++ (",1 @@".data) ++ fixHeaders rest
    | none => c :: fixHeaders cs
termination_by s.length
decreasing_by
  · exact matchHeader_length h
  · simp

/-- True when the header regex matches at no position of `s`. -/
def noHdr : List Char → Bool
  | [] => true
  | c :: cs => (matchHeader (c :: cs)).isNone && noHdr cs

/-- The prefix-repair loop of `fixPatchFormat` (server.js lines 893-918):
after a `@@` line, a non-empty line lacking a space/minus/plus marker is
reclassified by searching for an embedded `"- "` or `"+ "`, defaulting to
a context line. -/
def fixPrefixLoop : Bool → List (List Char) → List (List Char)
  | _, [] => []
  | inDiff, l :: ls =>
    if leadsWith ("@@".data) l then l :: fixPrefixLoop true ls
    else if inDiff && decide (l.length > 0) then
      (if !leadsWith (" ".data) l && !leadsWith ("-".data) l
          && !leadsWith ("+".data) l then
        match firstIndexOf l ("- ".data) with
        | some i => '-' :: l.drop (i + 2)
        | none =>
          match firstIndexOf l ("+ ".data) with
          | some i => '+' :: l.drop (i + 2)
          | none => ' ' :: l
       else l) :: fixPrefixLoop inDiff ls
    else l :: fixPrefixLoop inDiff ls

/-- `fixPatchFormat` (server.js lines 886-922): the header repair pass
followed by the line prefix repair pass.  (The second parameter is unused
in the source as well.) -/
def fixPatchFormat (patch _originalContent : List Char) : List Char :=
  joinNl (fixPrefixLoop false (splitNl (fixHeaders patch)))

/-- One full `apply_code_patch` call (server.js lines 836-884).  The
external diff-match-patch library is abstracted as
`dmp : normalizedPatch → normalizedContent → Option (newContent × hunkResults)`,
with `none` standing for a thrown parse/apply error.  When some hunks fail
the source calls `alternativePatch`; if that also fails it throws, the
throw lands in the surrounding `catch`, which calls `alternativePatch`
once more with the same arguments (same outcome) and rethrows. -/
def applyCodePatchRun
    (dmp : List Char → List Char → Option (List Char × List Bool))
    (originalContent patchContent : List Char) : RunOut :=
  let fixedPatch := fixPatchFormat patchContent originalContent
  let normalizedContent := stripCR originalContent
  let normalizedPatch := stripCR fixedPatch
  match dmp normalizedPatch normalizedContent with
  | some (newContent, results) =>
    if (results.filter (fun r => !r)).length > 0 then
      match alternativePatch originalContent patchContent with
      | some r => ⟨true, r, [r]⟩
      | none =>
        match alternativePatch originalContent patchContent with
        | some r => ⟨true, r, [r]⟩
        | none => ⟨false, originalContent, []⟩
    else ⟨true, newContent, [newContent]⟩
  | none =>
    match alternativePatch originalContent patchContent with
    | some r => ⟨true, r, [r]⟩
    | none => ⟨false, originalContent, []⟩

/-- A window of strategy 3 matches at line index `i`: the next
`oldLs.length` document lines exist and each, trimmed, equals the
corresponding pattern line, trimmed. -/
def WindowAt (oldLs ls : List (List Char)) (i : Nat) : Prop :=
  i + oldLs.length ≤ ls.length ∧
    ∀ j < oldLs.length, trimChars (ls.getD (i + j) []) = trimChars (oldLs.getD j [])

instance (oldLs ls : List (List Char)) (i : Nat) : Decidable (WindowAt oldLs ls i) := by
  unfold WindowAt
  exact inferInstance

/-- Line `i` passes the strategy-4 token test: it exists and strictly more
than 80% of `oldParts` occur among its tokens. -/
def TokenHit (oldParts ls : List (List Char)) (i : Nat) : Prop :=
  i < ls.length ∧
    5 * overlapCount oldParts (splitWS (trimChars (ls.getD i []))) > 4 * oldParts.length

instance (oldParts ls : List (List Char)) (i : Nat) : Decidable (TokenHit oldParts ls i) := by
  unfold TokenHit
  exact inferInstance

/-! ### Lemmas about `leadsWith`, `firstIndexOf` and `replaceFirst` -/

theorem leadsWith_iff {p s : List Char} :
    leadsWith p s = true ↔ ∃ t, s = p ++ t := by
  induction p generalizing s with
  | nil => simp [leadsWith]
  | cons a ps ih =>
    cases s with
    | nil => simp [leadsWith]
    | cons c cs =>
      simp only [leadsWith, Bool.and_eq_true, beq_iff_eq]
      constructor
      · rintro ⟨rfl, h⟩
        obtain ⟨t, rfl⟩ := ih.mp h
        exact ⟨t, rfl⟩
      · rintro ⟨t, ht⟩
        injection ht with h1 h2
        exact ⟨h1.symm, ih.mpr ⟨t, h2⟩⟩

theorem leadsWith_append (p t : List Char) : leadsWith p (p ++ t) = true :=
  leadsWith_iff.mpr ⟨t, rfl⟩

theorem firstIndexOf_spec {s pat : List Char} {i : Nat}
    (h : firstIndexOf s pat = some i) :
    leadsWith pat (s.drop i) = true ∧ ∀ j, j < i → leadsWith pat (s.drop j) = false := by
  induction s generalizing i with
  | nil =>
    unfold firstIndexOf at h
    split at h
    · rename_i hl
      cases h
      exact ⟨hl, fun j hj => absurd hj (Nat.not_lt_zero j)⟩
    · cases h
  | cons c cs ih =>
    unfold firstIndexOf at h
    split at h
    · rename_i hl
      cases h
      exact ⟨hl, fun j hj => absurd hj (Nat.not_lt_zero j)⟩
    · rename_i hl
      simp only [Option.map_eq_some'] at h
      obtain ⟨i', hi', rfl⟩ := h
      obtain ⟨h1, h2⟩ := ih hi'
      refine ⟨h1, ?_⟩
      intro j hj
      cases j with
      | zero =>
        simp only [List.drop_zero]
        simp only [Bool.not_eq_true] at hl
        exact hl
      | succ j' => exact h2 j' (by omega)

theorem firstIndexOf_none {s pat : List Char}
    (h : firstIndexOf s pat = none) :
    ∀ j, leadsWith pat (s.drop j) = false := by
  induction s with
  | nil =>
    intro j
    unfold firstIndexOf at h
    split at h
    · cases h
    · rename_i hl
      rw [List.drop_nil]
      simp only [Bool.not_eq_true] at hl
      exact hl
  | cons c cs ih =>
    intro j
    unfold firstIndexOf at h
    split at h
    · cases h
    · rename_i hl
      simp only [Option.map_eq_none'] at h
      cases j with
      | zero =>
        simp only [List.drop_zero]
        simp only [Bool.not_eq_true] at hl
        exact hl
      | succ j' => exact ih h j'

theorem exists_decomp_iff {s pat : List Char} :
    (∃ u v, s = u ++ pat ++ v) ↔ ∃ j, leadsWith pat (s.drop j) = true := by
  constructor
  · rintro ⟨u, v, rfl⟩
    refine ⟨u.length, ?_⟩
    rw [List.append_assoc, List.drop_left]
    exact leadsWith_append pat v
  · rintro ⟨j, hj⟩
    obtain ⟨t, ht⟩ := leadsWith_iff.mp hj
    refine ⟨s.take j, t, ?_⟩
    conv_lhs => rw [← List.take_append_drop j s]
    rw [ht, List.append_assoc]

theorem firstIndexOf_isSome_iff {s pat : List Char} :
    (firstIndexOf s pat).isSome = true ↔ ∃ u v, s = u ++ pat ++ v := by
  constructor
  · intro h
    obtain ⟨i, hi⟩ := Option.isSome_iff_exists.mp h
    exact exists_decomp_iff.mpr ⟨i, (firstIndexOf_spec hi).1⟩
  · intro h
    obtain ⟨j, hj⟩ := exists_decomp_iff.mp h
    cases hfi : firstIndexOf s pat with
    | none =>
      rw [firstIndexOf_none hfi j] at hj
      cases hj
    | some i => simp

theorem includes_iff {s pat : List Char} :
    includes s pat = true ↔ ∃ u v, s = u ++ pat ++ v := by
  unfold includes
  exact firstIndexOf_isSome_iff

theorem not_decomp_of_includes_false {s pat : List Char}
    (h : includes s pat = false) : ¬ ∃ u v, s = u ++ pat ++ v := by
  intro hc
  rw [← includes_iff] at hc
  rw [h] at hc
  cases hc

theorem firstIndexOf_min {s pat u v : List Char}
    (hdec : s = u ++ pat ++ v)
    (hmin : ∀ u' v', s = u' ++ pat ++ v' → u.length ≤ u'.length) :
    firstIndexOf s pat = some u.length := by
  have hsome : (firstIndexOf s pat).isSome = true :=
    firstIndexOf_isSome_iff.mpr ⟨u, v, hdec⟩
  obtain ⟨i, hi⟩ := Option.isSome_iff_exists.mp hsome
  obtain ⟨h1, h2⟩ := firstIndexOf_spec hi
  obtain ⟨t, ht⟩ := leadsWith_iff.mp h1
  have hdi : s = s.take i ++ pat ++ t := by
    conv_lhs => rw [← List.take_append_drop i s]
    rw [ht, List.append_assoc]
  have hle : u.length ≤ (s.take i).length := hmin _ _ hdi
  have hlt : (s.take i).length ≤ i := by
    rw [List.length_take]
    exact Nat.min_le_left _ _
  have hge : ¬ u.length < i := by
    intro hcon
    have hfalse : leadsWith pat (s.drop u.length) = false := h2 _ hcon
    rw [hdec, List.append_assoc, List.drop_left, leadsWith_append] at hfalse
    cases hfalse
  have hieq : i = u.length := by omega
  rw [hi, hieq]

theorem replaceFirst_min {s pat u v n : List Char}
    (hdec : s = u ++ pat ++ v)
    (hmin : ∀ u' v', s = u' ++ pat ++ v' → u.length ≤ u'.length) :
    replaceFirst s pat n = u ++ getSubstitution pat u v n ++ v := by
  unfold replaceFirst
  rw [firstIndexOf_min hdec hmin]
  have ht : s.take u.length = u := by
    rw [hdec, List.append_assoc, List.take_left]
  have hd : s.drop (u.length + pat.length) = v := by
    rw [hdec, ← List.length_append, List.drop_left]
  dsimp only
  rw [ht, hd]

theorem getSubstitution_no_dollar (m b a : List Char) :
    ∀ repl : List Char, '$' ∉ repl → getSubstitution m b a repl = repl := by
  intro repl
  induction repl with
  | nil => intro _; rfl
  | cons c rest ih =>
    intro h
    have hc : ¬ (c = '$') := fun hc => h (by rw [hc]; exact List.mem_cons_self _ _)
    have hrest : '$' ∉ rest := fun hr => h (List.mem_cons_of_mem c hr)
    cases rest with
    | nil => rfl
    | cons d rest' =>
      simp only [getSubstitution]
      rw [if_neg hc, ih hrest]

/-! ### Lemmas about `splitNl` and `joinNl` -/

@[simp] theorem joinNl_nil : joinNl [] = [] := rfl

@[simp] theorem joinNl_single (l : List Char) : joinNl [l] = l := rfl

@[simp] theorem joinNl_cons (l m : List Char) (ls : List (List Char)) :
    joinNl (l :: m :: ls) = l ++ '\n' :: joinNl (m :: ls) := rfl

theorem splitNl_ne_nil (s : List Char) : splitNl s ≠ [] := by
  cases s with
  | nil => simp [splitNl]
  | cons c cs =>
    unfold splitNl
    split
    · simp
    · cases h : splitNl cs <;> simp

/-! ### Claim theorems -/

/-- C9: for every text, splitting on newline (keeping empty trailing
segments) and re-joining with newline returns the text unchanged —
`serialize(load(text)) == text`, including the empty string and texts
ending in newlines. -/
theorem split_join_roundtrip (s : List Char) : joinNl (splitNl s) = s := by
  induction s with
  | nil => rfl
  | cons c cs ih =>
    unfold splitNl
    by_cases hc : c = '\n'
    · simp only [if_pos hc]
      cases h : splitNl cs with
      | nil => exact absurd h (splitNl_ne_nil cs)
      | cons l ls =>
        rw [h] at ih
        subst hc
        cases ls with
        | nil => simpa using ih
        | cons m ms => simpa using ih
    · simp only [if_neg hc]
      cases h : splitNl cs with
      | nil => exact absurd h (splitNl_ne_nil cs)
      | cons l ls =>
        rw [h] at ih
        cases ls with
        | nil =>
          simp only [joinNl_single] at ih
          simp [joinNl_single, ih]
        | cons m ms =>
          simp only [joinNl_cons] at ih ⊢
          rw [List.cons_append, ih]

/-- C1 counterexample: JS `String.replace` applies `$`-substitution to
the replacement string, so the first occurrence is not replaced by
`new_code` verbatim: with `new_code` `$$` the inserted text is a single
`$`, and with `$&X` it is the matched text followed by `X`. -/
theorem exact_mode_substitution_counterexample :
    smartReplace ("ab".data) ("a".data) ("$$".data) MatchMode.exact
      = some ("$b".data)
    ∧ ("$b".data) ≠ ("$$b".data)
    ∧ smartReplace ("ab".data) ("a".data) ("$&X".data) MatchMode.exact
        = some ("aXb".data)
    ∧ ("aXb".data) ≠ ("$&Xb".data) :=
  ⟨by decide, by decide, by decide, by decide⟩

/-- C1 amended: in exact match mode, `smartReplace` succeeds iff
`old_code` occurs verbatim as a substring of the document, and on success
the result is the document with exactly the leftmost occurrence of
`old_code` replaced by `new_code` AFTER the JS `$`-substitution step
(`$$` inserts `$`, `$&` the matched text, a `$` followed by a backquote
or an apostrophe the text before or after the match; anything else is
literal); the text after that occurrence — hence every later occurrence —
is unchanged (substring replace semantics, not a global replacement), and
a `new_code` containing no `$` character is inserted verbatim. -/
theorem exact_mode_first_occurrence (c o n : List Char) :
    ((∃ r, smartReplace c o n MatchMode.exact = some r) ↔ ∃ u v, c = u ++ o ++ v)
    ∧ ∀ u v, c = u ++ o ++ v →
        (∀ u' v', c = u' ++ o ++ v' → u.length ≤ u'.length) →
        smartReplace c o n MatchMode.exact
            = some (u ++ getSubstitution o u v n ++ v)
        ∧ ('$' ∉ n →
            smartReplace c o n MatchMode.exact = some (u ++ n ++ v)) := by
  constructor
  · unfold smartReplace
    by_cases h : includes c o = true
    · simp only [if_pos h]
      rw [← @includes_iff c o]
      simp [h]
    · simp only [Bool.not_eq_true] at h
      simp only [h, Bool.false_eq_true, if_false]
      rw [← @includes_iff c o]
      simp [h]
  · intro u v hdec hmin
    have hinc : includes c o = true := includes_iff.mpr ⟨u, v, hdec⟩
    have hmain : smartReplace c o n MatchMode.exact
        = some (u ++ getSubstitution o u v n ++ v) := by
      unfold smartReplace
      simp only [hinc, if_true]
      rw [replaceFirst_min hdec hmin]
    refine ⟨hmain, fun hnd => ?_⟩
    rw [hmain, getSubstitution_no_dollar o u v n hnd]

/-- Witness for the amended C1 at a concrete input: in the document
`abab` the pattern `ab` occurs twice; exact mode replaces only the first
occurrence, and the `$`-free replacement `X` is inserted verbatim. -/
theorem exact_mode_first_occurrence_witness :
    smartReplace ("abab".data) ("ab".data) ("X".data) MatchMode.exact
      = some ("Xab".data) := by
  have h := ((exact_mode_first_occurrence ("abab".data) ("ab".data)
    ("X".data)).2 [] ("ab".data) (by decide)
    (fun u' v' _ => Nat.zero_le _)).2 (by decide)
  exact h.trans (by decide)

/-- C2: atomicity of both entry points.  For every invocation of
`smart_replace` (any mode) and of `apply_code_patch` (any behaviour of the
external diff-match-patch engine), at most one write is performed, a write
happens exactly when the operation reports success, and on failure the
file content is exactly what was read — no partial or intermediate
writes. -/
theorem edit_operations_atomic
    (dmp : List Char → List Char → Option (List Char × List Bool))
    (content oldCode newCode patch : List Char) (mode : MatchMode) :
    (((smartReplaceRun content oldCode newCode mode).writes.length ≤ 1)
      ∧ ((smartReplaceRun content oldCode newCode mode).ok = false →
          (smartReplaceRun content oldCode newCode mode).file = content
            ∧ (smartReplaceRun content oldCode newCode mode).writes = [])
      ∧ ((smartReplaceRun content oldCode newCode mode).ok = true →
          (smartReplaceRun content oldCode newCode mode).writes
            = [(smartReplaceRun content oldCode newCode mode).file]))
    ∧ (((applyCodePatchRun dmp content patch).writes.length ≤ 1)
      ∧ ((applyCodePatchRun dmp content patch).ok = false →
          (applyCodePatchRun dmp content patch).file = content
            ∧ (applyCodePatchRun dmp content patch).writes = [])
      ∧ ((applyCodePatchRun dmp content patch).ok = true →
          (applyCodePatchRun dmp content patch).writes
            = [(applyCodePatchRun dmp content patch).file])) := by
  constructor
  · unfold smartReplaceRun
    rcases hs : smartReplace content oldCode newCode mode with - | r <;>
      simp [hs]
  · unfold applyCodePatchRun
    rcases hd : dmp (stripCR (fixPatchFormat patch content)) (stripCR content)
      with - | ⟨nc, results⟩
    · simp only [hd]
      rcases ha : alternativePatch content patch with - | r <;> simp [ha]
    · simp only [hd]
      by_cases hf : (results.filter (fun r => !r)).length > 0
      · rw [if_pos hf]
        rcases ha : alternativePatch content patch with - | r <;> simp [ha]
      · rw [if_neg hf]
        simp

/-- Witness for C2 at concrete inputs: a failing `smart_replace` and a
failing `apply_code_patch` both leave the file untouched and write
nothing. -/
theorem edit_operations_atomic_witness :
    (smartReplaceRun ("a".data) ("b".data) ("c".data) MatchMode.exact).file = ("a".data)
      ∧ (smartReplaceRun ("a".data) ("b".data) ("c".data) MatchMode.exact).writes = []
      ∧ (applyCodePatchRun (fun _ _ => none) ("a".data) ("p".data)).file = ("a".data)
      ∧ (applyCodePatchRun (fun _ _ => none) ("a".data) ("p".data)).writes = [] := by
  have h := edit_operations_atomic (fun _ _ => none) ("a".data) ("b".data)
    ("c".data) ("p".data) MatchMode.exact
  obtain ⟨⟨-, h1, -⟩, ⟨-, h2, -⟩⟩ := h
  have s1 := h1 (by decide)
  have s2 := h2 (by decide)
  exact ⟨s1.1, s1.2, s2.1, s2.2⟩

/-- C10: in smart mode the engine's result travels through a truthy/falsy
channel in which the empty string is indistinguishable from no match; if
the strategies produce the empty string, `smartReplace` reports the
could-not-find failure and writes nothing, so a smart-mode edit can never
produce an empty file. -/
theorem smart_empty_never_written (c o n : List Char) :
    (∀ r, smartReplace c o n MatchMode.smart = some r → r ≠ [])
    ∧ (smartMatch c o n = some [] →
        smartReplaceRun c o n MatchMode.smart = ⟨false, c, []⟩) := by
  constructor
  · intro r hr
    unfold smartReplace at hr
    rcases hm : smartMatch c o n with - | nc
    · simp only [hm] at hr
      cases hr
    · simp only [hm] at hr
      by_cases hnc : nc = []
      · rw [if_pos hnc] at hr
        cases hr
      · rw [if_neg hnc] at hr
        cases hr
        exact hnc
  · intro hm
    unfold smartReplaceRun smartReplace
    simp [hm]

/-- Witness for C10 at a concrete input: the document is exactly
`old_code` and `new_code` is empty, so strategy 1 produces the empty
string; the call fails and performs no write. -/
theorem smart_empty_never_written_witness :
    smartReplaceRun ("x".data) ("x".data) ("".data) MatchMode.smart
      = ⟨false, "x".data, []⟩ :=
  (smart_empty_never_written ("x".data) ("x".data) ("".data)).2 (by decide)

/-! ### Lemmas about the header repair pass -/

theorem dropLit_nil (s : List Char) : dropLit [] s = some s := by
  simp [dropLit, leadsWith]

theorem dropLit_cons (a : Char) (lit s : List Char) :
    dropLit (a :: lit) (a :: s) = dropLit lit s := by
  unfold dropLit
  simp [leadsWith, List.length_cons, List.drop_succ_cons]

theorem takeWhile_digits_append {x z : List Char}
    (hx : ∀ a ∈ x, a.isDigit = true)
    (hz : z.takeWhile Char.isDigit = []) :
    (x ++ z).takeWhile Char.isDigit = x ∧ (x ++ z).dropWhile Char.isDigit = z := by
  induction x with
  | nil =>
    refine ⟨hz, ?_⟩
    cases z with
    | nil => rfl
    | cons c cs =>
      rw [List.takeWhile_cons] at hz
      split at hz
      · cases hz
      · rename_i hc
        simp only [Bool.not_eq_true] at hc
        simp [List.dropWhile_cons, hc]
  | cons a xs ih =>
    have ha := hx a (List.mem_cons_self a xs)
    obtain ⟨h1, h2⟩ := ih (fun b hb => hx b (List.mem_cons_of_mem a hb))
    constructor
    · simp [List.takeWhile_cons, ha, h1]
    · simp [List.dropWhile_cons, ha, h2]

theorem digitRun_append {x z : List Char}
    (hx : ∀ a ∈ x, a.isDigit = true) (hxne : x ≠ [])
    (hz : z.takeWhile Char.isDigit = []) :
    digitRun (x ++ z) = some (x, z) := by
  obtain ⟨h1, h2⟩ := takeWhile_digits_append hx hz
  unfold digitRun
  rw [h1, h2, if_neg hxne]

theorem matchHeader_full {x y : List Char} (t : List Char)
    (hx : ∀ a ∈ x, a.isDigit = true) (hxne : x ≠ [])
    (hy : ∀ a ∈ y, a.isDigit = true) (hyne : y ≠ []) :
    matchHeader ('@' :: '@' :: ' ' :: '-' ::
        (x ++ (' ' :: '+' :: (y ++ (' ' :: '@' :: '@' :: t)))))
      = some (x, t) := by
  have hsp : Char.isDigit ' ' = false := by decide
  have d1 : dropLit ("@@ -".data) ('@' :: '@' :: ' ' :: '-' ::
      (x ++ (' ' :: '+' :: (y ++ (' ' :: '@' :: '@' :: t)))))
      = some (x ++ (' ' :: '+' :: (y ++ (' ' :: '@' :: '@' :: t)))) := by
    have e : ("@@ -".data) = ['@', '@', ' ', '-'] := by decide
    rw [e, dropLit_cons, dropLit_cons, dropLit_cons, dropLit_cons, dropLit_nil]
  have hz1 : (' ' :: '+' :: (y ++ (' ' :: '@' :: '@' :: t))).takeWhile Char.isDigit
      = [] := by
    simp [List.takeWhile_cons, hsp]
  have d2 := digitRun_append hx hxne hz1
  have d3 : dropLit (" +".data) (' ' :: '+' :: (y ++ (' ' :: '@' :: '@' :: t)))
      = some (y ++ (' ' :: '@' :: '@' :: t)) := by
    have e : (" +".data) = [' ', '+'] := by decide
    rw [e, dropLit_cons, dropLit_cons, dropLit_nil]
  have hz2 : (' ' :: '@' :: '@' :: t).takeWhile Char.isDigit = [] := by
    simp [List.takeWhile_cons, hsp]
  have d4 := digitRun_append hy hyne hz2
  have d5 : dropLit (" @@".data) (' ' :: '@' :: '@' :: t) = some t := by
    have e : (" @@".data) = [' ', '@', '@'] := by decide
    rw [e, dropLit_cons, dropLit_cons, dropLit_cons, dropLit_nil]
  unfold matchHeader
  rw [d1, Option.some_bind, d2, Option.some_bind]
  dsimp only
  rw [d3, Option.some_bind, d4, Option.some_bind]
  dsimp only
  rw [d5, Option.map_some']

theorem fixHeaders_nil : fixHeaders [] = [] := by
  rw [fixHeaders]

theorem fixHeaders_pos {c : Char} {cs x rest : List Char}
    (h : matchHeader (c :: cs) = some (x, rest)) :
    fixHeaders (c :: cs)
      = ("@@ -".data) ++ x ++ (",1 +".data) ++ x ++ (",1 @@".data)
          ++ fixHeaders rest := by
  rw [fixHeaders]
  split
  · rename_i x' rest' heq
    rw [h] at heq
    injection heq with heq2
    injection heq2 with e1 e2
    subst e1
    subst e2
    rfl
  · rename_i heq
    rw [h] at heq
    cases heq

theorem fixHeaders_neg {c : Char} {cs : List Char}
    (h : matchHeader (c :: cs) = none) :
    fixHeaders (c :: cs) = c :: fixHeaders cs := by
  rw [fixHeaders]
  split
  · rename_i x' rest' heq
    rw [h] at heq
    cases heq
  · rfl

/-- C7: every header of the form `@@ -X +Y @@` (bare digits, no counts) is
rewritten to `@@ -X,1 +X,1 @@` — both rewritten fields reuse the old-side
position `X` and the new-side value `Y` is discarded — while text without
such a header (in particular a header already carrying counts, like
`@@ -10,2 +11,3 @@`) passes through this pass unchanged. -/
theorem header_repair_reuses_old_offset :
    (∀ x y rest : List Char, (∀ a ∈ x, a.isDigit = true) → x ≠ [] →
      (∀ a ∈ y, a.isDigit = true) → y ≠ [] →
      fixHeaders (("@@ -".data) ++ x ++ (" +".data) ++ y ++ (" @@".data) ++ rest)
        = ("@@ -".data) ++ x ++ (",1 +".data) ++ x ++ (",1 @@".data)
            ++ fixHeaders rest)
    ∧ (∀ s, noHdr s = true → fixHeaders s = s)
    ∧ fixHeaders ("@@ -10,2 +11,3 @@".data) = ("@@ -10,2 +11,3 @@".data) := by
  have hid : ∀ s, noHdr s = true → fixHeaders s = s := by
    intro s
    induction s with
    | nil => intro _; exact fixHeaders_nil
    | cons c cs ih =>
      intro hn
      unfold noHdr at hn
      simp only [Bool.and_eq_true, Option.isNone_iff_eq_none] at hn
      rw [fixHeaders_neg hn.1, ih hn.2]
  refine ⟨?_, hid, hid _ (by decide)⟩
  intro x y rest hx hxne hy hyne
  have e : ("@@ -".data) ++ x ++ (" +".data) ++ y ++ (" @@".data) ++ rest
      = '@' :: '@' :: ' ' :: '-'
          :: (x ++ (' ' :: '+' :: (y ++ (' ' :: '@' :: '@' :: rest)))) := by
    have e1 : ("@@ -".data) = ['@', '@', ' ', '-'] := by decide
    have e2 : (" +".data) = [' ', '+'] := by decide
    have e3 : (" @@".data) = [' ', '@', '@'] := by decide
    rw [e1, e2, e3]
    simp [List.append_assoc]
  rw [e, fixHeaders_pos (matchHeader_full rest hx hxne hy hyne)]

/-- Witness for C7 at a concrete input: `@@ -10 +99 @@` becomes
`@@ -10,1 +10,1 @@` — the new-side value 99 is discarded. -/
theorem header_repair_reuses_old_offset_witness :
    fixHeaders ("@@ -10 +99 @@".data) = ("@@ -10,1 +10,1 @@".data) := by
  have h := header_repair_reuses_old_offset
  have h1 := h.1 ("10".data) ("99".data) [] (by decide) (by decide)
    (by decide) (by decide)
  have h0 := h.2.1 [] (by decide)
  rw [h0] at h1
  have e : ("@@ -10 +99 @@".data)
      = ("@@ -".data) ++ ("10".data) ++ (" +".data) ++ ("99".data)
          ++ (" @@".data) ++ [] := by decide
  rw [e, h1]
  decide

/-! ### Lemmas about whitespace collapsing -/

@[simp] theorem collapseAux_nil (b : Bool) : collapseAux b [] = [] := rfl

@[simp] theorem collapse_nil : collapse [] = [] := rfl

theorem collapseAux_cons_ws_true {c : Char} (cs : List Char) (hc : isWS c = true) :
    collapseAux true (c :: cs) = collapseAux true cs := by
  conv_lhs => rw [collapseAux]
  simp [hc]

theorem collapseAux_cons_ws_false {c : Char} (cs : List Char) (hc : isWS c = true) :
    collapseAux false (c :: cs) = ' ' :: collapseAux true cs := by
  conv_lhs => rw [collapseAux]
  simp [hc]

theorem collapseAux_cons_nonws (b : Bool) {c : Char} (cs : List Char)
    (hc : isWS c = false) :
    collapseAux b (c :: cs) = c :: collapseAux false cs := by
  conv_lhs => rw [collapseAux]
  simp [hc]

theorem collapseAux_true_eq (t : List Char) :
    collapseAux true t = collapseAux false (t.dropWhile isWS) := by
  induction t with
  | nil => rfl
  | cons c cs ih =>
    by_cases hc : isWS c = true
    · rw [collapseAux_cons_ws_true cs hc, List.dropWhile_cons, if_pos hc, ih]
    · simp only [Bool.not_eq_true] at hc
      rw [collapseAux_cons_nonws true cs hc, List.dropWhile_cons]
      simp only [hc, Bool.false_eq_true, if_false]
      rw [collapseAux_cons_nonws false cs hc]

theorem collapse_cons_ws {c : Char} (cs : List Char) (hc : isWS c = true) :
    collapse (c :: cs) = ' ' :: collapseAux false (cs.dropWhile isWS) := by
  unfold collapse
  rw [collapseAux_cons_ws_false cs hc, collapseAux_true_eq]

theorem collapse_cons_nonws {c : Char} (cs : List Char) (hc : isWS c = false) :
    collapse (c :: cs) = c :: collapse cs := by
  unfold collapse
  rw [collapseAux_cons_nonws false cs hc]

theorem collapse_append_left (s t : List Char) :
    ∃ w, collapse (s ++ t) = collapse s ++ w := by
  cases s with
  | nil => exact ⟨collapse t, by simp⟩
  | cons c s' =>
    by_cases hc : isWS c = true
    · rw [List.cons_append, collapse_cons_ws (s' ++ t) hc,
        collapse_cons_ws s' hc, List.dropWhile_append]
      by_cases hd : s'.dropWhile isWS = []
      · refine ⟨collapseAux false (t.dropWhile isWS), ?_⟩
        rw [if_pos (by simp [List.isEmpty_iff, hd]), hd]
        rfl
      · obtain ⟨w, hw⟩ := collapse_append_left (s'.dropWhile isWS) t
        refine ⟨w, ?_⟩
        rw [if_neg (by simp [List.isEmpty_iff, hd]), List.cons_append]
        exact congrArg (fun z => ' ' :: z) hw
    · simp only [Bool.not_eq_true] at hc
      obtain ⟨w, hw⟩ := collapse_append_left s' t
      refine ⟨w, ?_⟩
      rw [List.cons_append, collapse_cons_nonws (s' ++ t) hc,
        collapse_cons_nonws s' hc, List.cons_append]
      exact congrArg (fun z => c :: z) hw
termination_by s.length
decreasing_by
  · simp only [List.length_cons]
    exact Nat.lt_succ_of_le (List.Sublist.length_le (List.dropWhile_sublist _))
  · simp

theorem space_collapseAux_true (t : List Char) :
    ∃ u, ' ' :: collapseAux true t = u ++ collapse t := by
  cases t with
  | nil => exact ⟨[' '], rfl⟩
  | cons c cs =>
    by_cases hc : isWS c = true
    · refine ⟨[], ?_⟩
      rw [collapseAux_cons_ws_true cs hc]
      unfold collapse
      rw [collapseAux_cons_ws_false cs hc, List.nil_append]
    · simp only [Bool.not_eq_true] at hc
      refine ⟨[' '], ?_⟩
      rw [collapseAux_cons_nonws true cs hc]
      unfold collapse
      rw [collapseAux_cons_nonws false cs hc]
      rfl

theorem collapse_append_right (s t : List Char) :
    ∃ u, collapse (s ++ t) = u ++ collapse t := by
  cases s with
  | nil => exact ⟨[], by simp⟩
  | cons c s' =>
    by_cases hc : isWS c = true
    · rw [List.cons_append, collapse_cons_ws (s' ++ t) hc, List.dropWhile_append]
      by_cases hd : s'.dropWhile isWS = []
      · rw [if_pos (by simp [List.isEmpty_iff, hd]), ← collapseAux_true_eq]
        exact space_collapseAux_true t
      · obtain ⟨u, hu⟩ := collapse_append_right (s'.dropWhile isWS) t
        refine ⟨' ' :: u, ?_⟩
        rw [if_neg (by simp [List.isEmpty_iff, hd]), List.cons_append]
        exact congrArg (fun z => ' ' :: z) hu
    · simp only [Bool.not_eq_true] at hc
      obtain ⟨u, hu⟩ := collapse_append_right s' t
      refine ⟨c :: u, ?_⟩
      rw [List.cons_append, collapse_cons_nonws (s' ++ t) hc, List.cons_append]
      exact congrArg (fun z => c :: z) hu
termination_by s.length
decreasing_by
  · simp only [List.length_cons]
    exact Nat.lt_succ_of_le (List.Sublist.length_le (List.dropWhile_sublist _))
  · simp

theorem collapse_decomp {c o : List Char}
    (h : ∃ u v, c = u ++ o ++ v) :
    ∃ u' v', collapse c = u' ++ collapse o ++ v' := by
  obtain ⟨u, v, rfl⟩ := h
  obtain ⟨w, hw⟩ := collapse_append_left o v
  obtain ⟨u', hu⟩ := collapse_append_right u (o ++ v)
  refine ⟨u', w, ?_⟩
  rw [List.append_assoc, hu, hw]
  exact (List.append_assoc _ _ _).symm

theorem fuzzy_succeeds_of_normalized {c o : List Char} (n : List Char)
    (h : ∃ u v, collapse c = u ++ collapse o ++ v) :
    ∃ r, smartReplace c o n MatchMode.fuzzy = some r := by
  have hsome : (firstIndexOf (collapse c) (collapse o)).isSome = true :=
    firstIndexOf_isSome_iff.mpr h
  rcases hfi : firstIndexOf (collapse c) (collapse o) with - | i
  · rw [hfi] at hsome
    cases hsome
  · exact ⟨_, by simp only [smartReplace]; rw [hfi]⟩

theorem fuzzy_fails_of_not_normalized {c o n : List Char}
    (h : firstIndexOf (collapse c) (collapse o) = none) :
    smartReplace c o n MatchMode.fuzzy = none := by
  simp only [smartReplace]
  rw [h]

/-- C3 counterexample: in the document `a  b\na b` the pattern `a b`
occurs verbatim (at offset 5), yet the fuzzy-mode result is NOT the
exact-substring replacement of the first verbatim occurrence — the
whitespace-normalized strategy fires on the earlier irregular span
`a  b`, so strategy 1 (ExactSubstring) is not run first in fuzzy mode. -/
theorem fuzzy_mode_counterexample :
    includes ("a  b\na b".data) ("a b".data) = true
    ∧ smartReplace ("a  b\na b".data) ("a b".data) ("X".data) MatchMode.fuzzy
        = some ("X\na b".data)
    ∧ replaceFirst ("a  b\na b".data) ("a b".data) ("X".data) = ("a  b\nX".data)
    ∧ ("X\na b".data) ≠ ("a  b\nX".data) :=
  ⟨by decide, by decide, by decide, by decide⟩

/-- C3 amended: in fuzzy mode only strategy 2 (WhitespaceNormalizedFuzzy)
runs; the edit succeeds exactly when the whitespace-normalized old text
occurs in the normalized document.  In particular, for every document in
which `old_code` occurs verbatim the fuzzy-mode edit still succeeds, but
the replaced span is derived from the first normalized occurrence, which
need not coincide with the first verbatim occurrence (strategy 1 is never
consulted). -/
theorem fuzzy_mode_normalized_only (c o n : List Char) :
    ((∃ r, smartReplace c o n MatchMode.fuzzy = some r)
      ↔ ∃ u v, collapse c = u ++ collapse o ++ v)
    ∧ ((∃ u v, c = u ++ o ++ v) →
        ∃ r, smartReplace c o n MatchMode.fuzzy = some r) := by
  have hiff : (∃ r, smartReplace c o n MatchMode.fuzzy = some r)
      ↔ ∃ u v, collapse c = u ++ collapse o ++ v := by
    constructor
    · intro ⟨r, hr⟩
      rcases hfi : firstIndexOf (collapse c) (collapse o) with - | i
      · rw [fuzzy_fails_of_not_normalized hfi] at hr
        cases hr
      · exact firstIndexOf_isSome_iff.mp (by rw [hfi]; rfl)
    · exact fuzzy_succeeds_of_normalized n
  exact ⟨hiff, fun h => hiff.mpr (collapse_decomp h)⟩

/-- Witness for the amended C3: a concrete document with a verbatim
occurrence of the pattern on which fuzzy mode succeeds. -/
theorem fuzzy_mode_normalized_only_witness :
    ∃ r, smartReplace ("a  b\na b".data) ("a b".data) ("Y".data)
      MatchMode.fuzzy = some r :=
  (fuzzy_mode_normalized_only ("a  b\na b".data) ("a b".data) ("Y".data)).2
    ⟨"a  b\n".data, [], by decide⟩

/-- C8 counterexample: the document `x a  =  1` contains the irregular
span `a  =  1`; the claim predicts that span is replaced with `new_code`
verbatim (giving `x Q`), but the offset-mapping walk undercounts the
single-space run before the occurrence and the code replaces the shifted
span `  =  1` instead, producing `x aQ`. -/
theorem fuzzy_irregular_counterexample :
    includes ("x a  =  1".data) ("a  =  1".data) = true
    ∧ smartReplace ("x a  =  1".data) ("a = 1".data) ("Q".data)
        MatchMode.fuzzy = some ("x aQ".data)
    ∧ replaceFirst ("x a  =  1".data) ("a  =  1".data) ("Q".data)
        = ("x Q".data)
    ∧ ("x aQ".data) ≠ ("x Q".data) :=
  ⟨by decide, by decide, by decide, by decide⟩

/-- C8 amended: for every document containing `a  =  1`, a fuzzy-mode
request with `old_code` `a = 1` succeeds (the normalized occurrence is
located); when the document is exactly `a  =  1` the irregular span is
correctly mapped back and replaced with `new_code` verbatim (the result is
exactly `new_code`, not reformatted).  For documents with other text
before the occurrence the mapped-back span may be shifted (see the
counterexample). -/
theorem fuzzy_irregular_spacing_amended :
    (∀ d n : List Char, (∃ u v, d = u ++ ("a  =  1".data) ++ v) →
      ∃ r, smartReplace d ("a = 1".data) n MatchMode.fuzzy = some r)
    ∧ ∀ n : List Char,
        smartReplace ("a  =  1".data) ("a = 1".data) n MatchMode.fuzzy
          = some n := by
  constructor
  · intro d n hd
    apply fuzzy_succeeds_of_normalized
    have h2 := collapse_decomp hd
    have e : collapse ("a  =  1".data) = collapse ("a = 1".data) := by decide
    rwa [e] at h2
  · intro n
    have h1 : smartReplace ("a  =  1".data) ("a = 1".data) n MatchMode.fuzzy
        = some (n ++ []) := rfl
    rwa [List.append_nil] at h1

/-- Witness for the amended C8: the containing-document hypothesis
discharged at `z a  =  1` (and the second conjunct is hypothesis-free). -/
theorem fuzzy_irregular_spacing_amended_witness :
    (∃ r, smartReplace ("z a  =  1".data) ("a = 1".data) ("b = 2".data)
      MatchMode.fuzzy = some r)
    ∧ smartReplace ("a  =  1".data) ("a = 1".data) ("b = 2".data)
        MatchMode.fuzzy = some ("b = 2".data) :=
  ⟨(fuzzy_irregular_spacing_amended.1 ("z a  =  1".data) ("b = 2".data)
      ⟨"z ".data, [], by decide⟩),
    fuzzy_irregular_spacing_amended.2 ("b = 2".data)⟩

/-! ### Lemmas about the smart-mode line/window/token scans -/

theorem lineScan_none {t n : List Char} :
    ∀ {ls : List (List Char)}, (∀ l ∈ ls, trimChars l ≠ t) →
      lineScan t n ls = none := by
  intro ls
  induction ls with
  | nil => intro _; rfl
  | cons l ls ih =>
    intro h
    unfold lineScan
    rw [if_neg (h l (List.mem_cons_self l ls)),
      ih (fun m hm => h m (List.mem_cons_of_mem l hm))]
    rfl

theorem trimEq2_iff {p w : List (List Char)} :
    trimEq2 p w = true ↔ WindowAt p w 0 := by
  induction p generalizing w with
  | nil => simp [trimEq2, WindowAt]
  | cons q ps ih =>
    cases w with
    | nil =>
      simp only [trimEq2, WindowAt, List.length_nil, List.length_cons]
      constructor
      · intro h; cases h
      · rintro ⟨h1, -⟩; omega
    | cons l ls =>
      simp only [trimEq2, Bool.and_eq_true, decide_eq_true_eq, ih, WindowAt,
        List.length_cons, Nat.zero_add]
      constructor
      · rintro ⟨h1, h2, h3⟩
        refine ⟨by omega, ?_⟩
        intro j hj
        cases j with
        | zero => simpa using h1
        | succ j' =>
          have := h3 j' (by omega)
          simpa [List.getD_cons_succ] using this
      · rintro ⟨h1, h2⟩
        refine ⟨by simpa using h2 0 (by omega), by omega, ?_⟩
        intro j hj
        have := h2 (j + 1) (by omega)
        simpa [List.getD_cons_succ] using this

theorem windowAt_succ {oldLs ls : List (List Char)} {l : List Char} {j : Nat} :
    WindowAt oldLs (l :: ls) (j + 1) ↔ WindowAt oldLs ls j := by
  unfold WindowAt
  simp only [List.length_cons]
  constructor
  · rintro ⟨h1, h2⟩
    refine ⟨by omega, ?_⟩
    intro k hk
    have := h2 k hk
    rwa [show j + 1 + k = (j + k) + 1 by omega, List.getD_cons_succ] at this
  · rintro ⟨h1, h2⟩
    refine ⟨by omega, ?_⟩
    intro k hk
    rw [show j + 1 + k = (j + k) + 1 by omega, List.getD_cons_succ]
    exact h2 k hk

theorem windowScan_none {oldLs newLs : List (List Char)} :
    ∀ {ls : List (List Char)}, (∀ j, ¬ WindowAt oldLs ls j) →
      windowScan oldLs newLs ls = none := by
  intro ls
  induction ls with
  | nil => intro _; rfl
  | cons l ls ih =>
    intro h
    unfold windowScan
    rw [if_neg (fun hEq => h 0 (trimEq2_iff.mp hEq)),
      ih (fun j hj => h (j + 1) (windowAt_succ.mpr hj))]
    rfl

theorem windowScan_first {oldLs newLs : List (List Char)} (hne : oldLs ≠ []) :
    ∀ {ls : List (List Char)} {i : Nat}, WindowAt oldLs ls i →
      (∀ j, j < i → ¬ WindowAt oldLs ls j) →
      windowScan oldLs newLs ls
        = some (ls.take i
            ++ newLs.map (fun nl => indentOf (ls.getD i []) ++ trimChars nl)
            ++ ls.drop (i + oldLs.length)) := by
  intro ls
  induction ls with
  | nil =>
    intro i hW _
    exfalso
    obtain ⟨h1, -⟩ := hW
    rw [List.length_nil] at h1
    exact hne (List.length_eq_zero.mp (by omega))
  | cons l ls ih =>
    intro i hW hmin
    cases i with
    | zero =>
      unfold windowScan
      rw [if_pos (trimEq2_iff.mpr hW)]
      simp only [List.take_zero, List.getD_cons_zero, Nat.zero_add,
        List.nil_append]
    | succ i' =>
      unfold windowScan
      rw [if_neg (fun hEq => hmin 0 (Nat.succ_pos i') (trimEq2_iff.mp hEq)),
        ih (windowAt_succ.mp hW)
          (fun j hj hW' => hmin (j + 1) (by omega) (windowAt_succ.mpr hW'))]
      simp only [Option.map_some', List.take_succ_cons, List.getD_cons_succ,
        show i' + 1 + oldLs.length = (i' + oldLs.length) + 1 by omega,
        List.drop_succ_cons, List.cons_append]

theorem tokenHit_succ {oldParts ls : List (List Char)} {l : List Char} {j : Nat} :
    TokenHit oldParts (l :: ls) (j + 1) ↔ TokenHit oldParts ls j := by
  unfold TokenHit
  simp only [List.length_cons, List.getD_cons_succ]
  omega

theorem tokenScan_first {oldParts : List (List Char)} {newCode : List Char} :
    ∀ {ls : List (List Char)} {i : Nat}, TokenHit oldParts ls i →
      (∀ j, j < i → ¬ TokenHit oldParts ls j) →
      tokenScan oldParts newCode ls
        = some (ls.take i
            ++ [indentOf (ls.getD i []) ++ trimChars newCode]
            ++ ls.drop (i + 1)) := by
  intro ls
  induction ls with
  | nil =>
    intro i hW _
    exfalso
    obtain ⟨h1, -⟩ := hW
    exact absurd h1 (by simp)
  | cons l ls ih =>
    intro i hW hmin
    cases i with
    | zero =>
      unfold tokenScan
      rw [if_pos ?hit]
      case hit =>
        obtain ⟨-, h2⟩ := hW
        simpa using h2
      simp only [List.take_zero, List.getD_cons_zero, Nat.zero_add,
        List.nil_append, List.drop_succ_cons, List.drop_zero,
        List.singleton_append]
    | succ i' =>
      unfold tokenScan
      rw [if_neg ?miss,
        ih (tokenHit_succ.mp hW)
          (fun j hj hW' => hmin (j + 1) (by omega) (tokenHit_succ.mpr hW'))]
      case miss =>
        intro hhit
        exact hmin 0 (Nat.succ_pos i') ⟨by simp, by simpa using hhit⟩
      simp only [Option.map_some', List.take_succ_cons, List.getD_cons_succ,
        show i' + 1 + 1 = (i' + 1) + 1 from rfl, List.drop_succ_cons,
        List.cons_append]

theorem windowAt_bound {oldLs ls : List (List Char)} (hne : oldLs ≠ [])
    (h : ∀ j, j < ls.length → ¬ WindowAt oldLs ls j) :
    ∀ j, ¬ WindowAt oldLs ls j := by
  intro j hW
  have hlen : 1 ≤ oldLs.length := by
    cases oldLs with
    | nil => exact absurd rfl hne
    | cons a as => simp
  have h1 := hW.1
  exact h j (by omega) hW

/-- C5: in smart mode, whenever the multi-line block strategy fires — the
earlier strategies found nothing and window `i` is the first run of
consecutive document lines whose trimmed forms equal the corresponding
trimmed lines of `old_code` — the window is replaced by `new_code`'s
lines with EVERY replacement line prefixed by the single indentation
captured from the window's first original line; the per-line indentation
present in `new_code` is discarded for every line. -/
theorem multiline_block_uniform_indent (content oldC newC : List Char) (i : Nat)
    (h1 : ¬ ∃ u v, content = u ++ oldC ++ v)
    (h2 : ∀ l ∈ splitNl content, trimChars l ≠ trimChars oldC)
    (h3 : WindowAt (splitNl (trimChars oldC)) (splitNl content) i)
    (h4 : ∀ j, j < i → ¬ WindowAt (splitNl (trimChars oldC)) (splitNl content) j) :
    smartMatch content oldC newC
      = some (joinNl ((splitNl content).take i
          ++ (splitNl (trimChars newC)).map
              (fun nl => indentOf ((splitNl content).getD i []) ++ trimChars nl)
          ++ (splitNl content).drop (i + (splitNl (trimChars oldC)).length))) := by
  have h1' : includes content oldC = false := by
    cases hb : includes content oldC
    · rfl
    · exact absurd (includes_iff.mp hb) h1
  simp only [smartMatch, h1', Bool.false_eq_true, if_false]
  rw [lineScan_none h2, windowScan_first (splitNl_ne_nil _) h3 h4]

/-- Witness for C5 at a concrete input: the block is found at a different
indentation depth; both replacement lines (including the nested
`return 2`) receive the two-space indentation of the window's first line,
so the nested line's own deeper indentation is lost. -/
theorem multiline_block_uniform_indent_witness :
    smartMatch ("  def f():\n      return 1".data)
        ("def f():\n    return 1".data) ("def f():\n    return 2".data)
      = some ("  def f():\n  return 2".data) := by
  have h := multiline_block_uniform_indent
    ("  def f():\n      return 1".data) ("def f():\n    return 1".data)
    ("def f():\n    return 2".data) 0
    (not_decomp_of_includes_false (by decide))
    (by decide)
    (by decide)
    (fun j hj => absurd hj (Nat.not_lt_zero j))
  exact h.trans (by decide)

/-- C6 counterexample: `old_code` has five whitespace-separated tokens and
the document's only line contains exactly four of them — an overlap of
exactly 80% — yet smart matching fails (no strategy fires), because the
code requires the fraction to STRICTLY exceed 0.8, so a line at exactly
0.8 is not replaced. -/
theorem token_overlap_counterexample :
    (splitWS (trimChars ("alpha beta gamma delta epsilon".data))).length = 5
    ∧ overlapCount (splitWS (trimChars ("alpha beta gamma delta epsilon".data)))
        (splitWS (trimChars ("delta gamma beta alpha x".data))) = 4
    ∧ smartMatch ("delta gamma beta alpha x".data)
        ("alpha beta gamma delta epsilon".data) ("y".data) = none :=
  ⟨by decide, by decide, by decide⟩

/-- C6 amended: the token-overlap strategy runs only when `old_code` has
more than 3 whitespace-separated tokens (with 3 or fewer, smart mode
fails outright once the earlier strategies miss), and then the first line
whose overlap fraction STRICTLY exceeds 80% has its entire content
replaced by `new_code.trim()` prefixed with that line's original
indentation; a line whose overlap equals exactly 0.8 is not replaced. -/
theorem token_overlap_strict_threshold (content oldC newC : List Char) (i : Nat)
    (h1 : ¬ ∃ u v, content = u ++ oldC ++ v)
    (h2 : ∀ l ∈ splitNl content, trimChars l ≠ trimChars oldC)
    (h3 : ∀ j, ¬ WindowAt (splitNl (trimChars oldC)) (splitNl content) j) :
    ((splitWS (trimChars oldC)).length ≤ 3 →
      smartMatch content oldC newC = none)
    ∧ ((splitWS (trimChars oldC)).length > 3 →
        TokenHit (splitWS (trimChars oldC)) (splitNl content) i →
        (∀ j, j < i → ¬ TokenHit (splitWS (trimChars oldC)) (splitNl content) j) →
        smartMatch content oldC newC
          = some (joinNl ((splitNl content).take i
              ++ [indentOf ((splitNl content).getD i []) ++ trimChars newC]
              ++ (splitNl content).drop (i + 1)))) := by
  have h1' : includes content oldC = false := by
    cases hb : includes content oldC
    · rfl
    · exact absurd (includes_iff.mp hb) h1
  constructor
  · intro hle
    simp only [smartMatch, h1', Bool.false_eq_true, if_false]
    rw [lineScan_none h2, windowScan_none h3, if_neg (by omega)]
  · intro hgt hhit hmin
    simp only [smartMatch, h1', Bool.false_eq_true, if_false]
    rw [lineScan_none h2, windowScan_none h3, if_pos hgt,
      tokenScan_first hhit hmin]

/-- Witness for the amended C6 at a concrete input: all four tokens occur
in the line (overlap 100% > 80%), so the line is replaced by the trimmed
replacement with the line's two-space indentation. -/
theorem token_overlap_strict_threshold_witness :
    smartMatch ("  delta gamma beta alpha x\nend".data)
        ("alpha beta gamma delta".data) ("x = 2".data)
      = some ("  x = 2\nend".data) := by
  have h := (token_overlap_strict_threshold
    ("  delta gamma beta alpha x\nend".data)
    ("alpha beta gamma delta".data) ("x = 2".data) 0
    (not_decomp_of_includes_false (by decide))
    (by decide)
    (windowAt_bound (splitNl_ne_nil _) (by decide))).2
    (by decide) (by decide) (fun j hj => absurd hj (Nat.not_lt_zero j))
  exact h.trans (by decide)

/-! ### Lemmas about the fallback extraction -/

theorem rem_add_exclusive {l : List Char}
    (h : leadsWith ("-".data) l = true) : leadsWith ("+".data) l = false := by
  obtain ⟨t, rfl⟩ := leadsWith_iff.mp h
  have hne : (('+' : Char) == '-') = false := by decide
  show leadsWith ['+'] ('-' :: t) = false
  simp [leadsWith, hne]

theorem extractLoop_eq : ∀ (ls : List (List Char)) (o n : List Char),
    extractLoop ls (o, n)
      = ((ls.filterMap remPart).foldl accumBlock o,
         (ls.filterMap addPart).foldl accumBlock n) := by
  intro ls
  induction ls with
  | nil => intro o n; rfl
  | cons l ls ih =>
    intro o n
    by_cases hB1 : (leadsWith ("-".data) l && !leadsWith ("---".data) l) = true
    · have hplus : leadsWith ("+".data) l = false :=
        rem_add_exclusive (Bool.and_eq_true_iff.mp hB1).1
      have hrem : remPart l = some (trimStartChars (l.drop 1)) := if_pos hB1
      have hadd : addPart l = none := by
        unfold addPart
        rw [hplus]
        simp
      simp only [List.filterMap_cons_some hrem, List.filterMap_cons_none hadd,
        List.foldl_cons]
      unfold extractLoop
      rw [if_pos hB1]
      exact ih _ _
    · have hB1' : (leadsWith ("-".data) l && !leadsWith ("---".data) l) = false :=
        Bool.not_eq_true _ ▸ hB1
      have hrem : remPart l = none := by
        unfold remPart
        rw [hB1']
        simp
      by_cases hB2 : (leadsWith ("+".data) l && !leadsWith ("+++".data) l) = true
      · have hadd : addPart l = some (trimStartChars (l.drop 1)) := if_pos hB2
        simp only [List.filterMap_cons_none hrem, List.filterMap_cons_some hadd,
          List.foldl_cons]
        unfold extractLoop
        rw [if_neg hB1, if_pos hB2]
        exact ih _ _
      · have hB2' : (leadsWith ("+".data) l && !leadsWith ("+++".data) l) = false :=
          Bool.not_eq_true _ ▸ hB2
        have hadd : addPart l = none := by
          unfold addPart
          rw [hB2']
          simp
        simp only [List.filterMap_cons_none hrem, List.filterMap_cons_none hadd]
        unfold extractLoop
        rw [if_neg hB1, if_neg hB2]
        exact ih _ _

theorem foldl_accumBlock_ne :
    ∀ (ps : List (List Char)) (a : List Char), a ≠ [] →
      ps.foldl accumBlock a = joinNl (a :: ps) := by
  intro ps
  induction ps with
  | nil => intro a _; rfl
  | cons p ps ih =>
    intro a ha
    rw [List.foldl_cons]
    have hacc : accumBlock a p = a ++ '\n' :: p := by
      unfold accumBlock
      rw [if_neg ha]
    have hne : accumBlock a p ≠ [] := by
      rw [hacc]
      simp
    rw [ih _ hne, hacc]
    cases ps with
    | nil => simp [joinNl]
    | cons q qs => simp [joinNl_cons, List.append_assoc]

theorem foldl_accumBlock_nil :
    ∀ ps : List (List Char),
      ps.foldl accumBlock [] = joinNl (ps.dropWhile (fun p => p.isEmpty)) := by
  intro ps
  induction ps with
  | nil => rfl
  | cons p ps ih =>
    rw [List.foldl_cons]
    by_cases hp : p = []
    · subst hp
      rw [show accumBlock [] [] = [] from rfl, ih, List.dropWhile_cons]
      simp
    · have hacc : accumBlock [] p = p := by
        unfold accumBlock
        rw [if_pos rfl]
      rw [hacc, foldl_accumBlock_ne ps p hp, List.dropWhile_cons]
      simp [List.isEmpty_iff, hp]

theorem alternativePatch_eq (doc patch : List Char) :
    alternativePatch doc patch
      = if oldBlockOf patch ≠ [] ∧ newBlockOf patch ≠ []
            ∧ includes doc (oldBlockOf patch) = true then
          some (replaceFirst doc (oldBlockOf patch) (newBlockOf patch))
        else none := by
  simp only [alternativePatch, oldBlockOf, newBlockOf, removalParts,
    additionParts, extractLoop_eq, foldl_accumBlock_nil]

/-- C4 counterexample: two concrete refutations.  With patch text
`-(newline)-old(newline)+new` the first removal line strips to the empty
string; joining ALL stripped removal lines with newlines (the claim's
description) yields a block starting with a newline, which does not occur
in the document, so the claim predicts failure — but the code drops
stripped-empty parts while the accumulator is still empty, builds the
block `old`, and succeeds.  And with patch `-old(newline)+$$` the
fallback fires, but `String.replace` runs `$`-substitution on the
addition block, inserting a single `$` rather than `newBlock` verbatim. -/
theorem fallback_blocks_counterexample :
    claimedOldBlock ("-\n-old\n+new".data) = ("\nold".data)
    ∧ includes ("say old here".data)
        (claimedOldBlock ("-\n-old\n+new".data)) = false
    ∧ alternativePatch ("say old here".data) ("-\n-old\n+new".data)
        = some ("say new here".data)
    ∧ alternativePatch ("old".data) ("-old\n+$$".data) = some ("$".data)
    ∧ ("$".data) ≠ ("$$".data) :=
  ⟨by decide, by decide, by decide, by decide, by decide⟩

/-- C4 amended: scanning the original patch text in order, the stripped
removal lines — with the leading run of stripped-EMPTY parts discarded —
joined with newlines form `oldBlock`, and likewise for `newBlock`; the
fallback succeeds iff both blocks are non-empty and `oldBlock` occurs
verbatim in the document, in which case exactly the first occurrence of
`oldBlock` is replaced by `newBlock` after the JS `$`-substitution step
(a `newBlock` containing no `$` is inserted verbatim); otherwise it
fails without modifying the document. -/
theorem fallback_extract_and_replace (doc patch : List Char) :
    ((∃ r, alternativePatch doc patch = some r)
      ↔ (oldBlockOf patch ≠ [] ∧ newBlockOf patch ≠ []
          ∧ ∃ u v, doc = u ++ oldBlockOf patch ++ v))
    ∧ (∀ u v, doc = u ++ oldBlockOf patch ++ v →
        (∀ u' v', doc = u' ++ oldBlockOf patch ++ v' → u.length ≤ u'.length) →
        oldBlockOf patch ≠ [] → newBlockOf patch ≠ [] →
        alternativePatch doc patch
            = some (u ++ getSubstitution (oldBlockOf patch) u v
                (newBlockOf patch) ++ v)
        ∧ ('$' ∉ newBlockOf patch →
            alternativePatch doc patch
              = some (u ++ newBlockOf patch ++ v))) := by
  constructor
  · rw [alternativePatch_eq]
    by_cases hc : oldBlockOf patch ≠ [] ∧ newBlockOf patch ≠ []
        ∧ includes doc (oldBlockOf patch) = true
    · rw [if_pos hc]
      constructor
      · intro _
        exact ⟨hc.1, hc.2.1, includes_iff.mp hc.2.2⟩
      · intro _
        exact ⟨_, rfl⟩
    · rw [if_neg hc]
      constructor
      · rintro ⟨r, hr⟩
        cases hr
      · rintro ⟨hob, hnb, hocc⟩
        exact absurd ⟨hob, hnb, includes_iff.mpr hocc⟩ hc
  · intro u v hdec hmin hob hnb
    have hmain : alternativePatch doc patch
        = some (u ++ getSubstitution (oldBlockOf patch) u v
            (newBlockOf patch) ++ v) := by
      rw [alternativePatch_eq,
        if_pos ⟨hob, hnb, includes_iff.mpr ⟨u, v, hdec⟩⟩,
        replaceFirst_min hdec hmin]
    refine ⟨hmain, fun hnd => ?_⟩
    rw [hmain, getSubstitution_no_dollar _ _ _ _ hnd]

/-- Witness for the amended C4 at a concrete input: patch
`-old(newline)+new` against document `old x` replaces the leftmost (here
leading) occurrence, and the `$`-free addition block is inserted
verbatim. -/
theorem fallback_extract_and_replace_witness :
    alternativePatch ("old x".data) ("-old\n+new".data)
      = some ("new x".data) := by
  have h := ((fallback_extract_and_replace ("old x".data)
    ("-old\n+new".data)).2 [] (" x".data) (by decide)
    (fun u' v' _ => Nat.zero_le _) (by decide) (by decide)).2 (by decide)
  exact h.trans (by decide)

end VibeServer
